import Mathlib

/-!
Verification development for `build-country-polygon.py`: a shallow embedding of
the perspective-area construction and border-reconciliation algorithm.

Geometry is modelled abstractly: a polygon or line is a finite set of abstract
points (`Finset ℕ`); `intersection`, `union` and `difference` are the set
operations, the `boundary` operator and the `touches` predicate (which depend on
the planar embedding, not on the set algebra the program performs) are passed in
as explicit parameters, and truthiness of `.length` is modelled as nonemptiness
of the point set.  For the serialization-precision claims a second,
coordinate-level model (`List (ℚ × ℚ)`) is used.  Strings are modelled with
Lean `String`s; Python's substring operators (`in` on `str`, pandas
`.str.contains`, whose regex patterns here are plain three-letter codes) are
modelled by an executable substring test on the underlying character lists.
-/

/-- `isPref c s` is true when the character list `c` is a prefix of `s`.
Helper for the substring test. -/
def isPref : List Char → List Char → Bool
  | [], _ => true
  | _ :: _, [] => false
  | a :: as, b :: bs => a == b && isPref as bs

/-- `seg c s` is true when `c` occurs as a contiguous segment (substring) of
`s`.  This models Python's `c in s` on strings and pandas
`.str.contains(c)` for a pattern `c` without regex metacharacters. -/
def seg (c : List Char) : List Char → Bool
  | [] => c.isEmpty
  | b :: bs => isPref c (b :: bs) || seg c bs

/-- Substring test on `String`s, modelling `iso3c in perspective_string` and
`gdf.perspective.str.contains(iso3c)`. -/
def strSeg (c s : String) : Bool := seg c.data s.data

/-- Comma-join of character-list tokens, the canonical serialization of a
perspective set used in the `perspective` CSV column. -/
def joinC : List (List Char) → List Char
  | [] => []
  | [x] => x
  | x :: y :: rest => x ++ ',' :: joinC (y :: rest)

/-- Comma-join of strings, modelling `",".join(...)`. -/
def joinComma : List String → String
  | [] => ""
  | [x] => x
  | x :: y :: rest => x ++ "," ++ joinComma (y :: rest)

theorem isPref_iff (c s : List Char) : isPref c s = true ↔ ∃ v, s = c ++ v := by
  induction c generalizing s with
  | nil => simp [isPref]
  | cons a as ih =>
    cases s with
    | nil => simp [isPref]
    | cons b bs =>
      simp only [isPref, Bool.and_eq_true, beq_iff_eq, ih, List.cons_append,
        List.cons.injEq]
      constructor
      · rintro ⟨rfl, v, rfl⟩; exact ⟨v, rfl, rfl⟩
      · rintro ⟨v, rfl, rfl⟩; exact ⟨rfl, v, rfl⟩

theorem seg_iff (c s : List Char) : seg c s = true ↔ ∃ u v, s = u ++ c ++ v := by
  induction s with
  | nil =>
    simp only [seg, List.isEmpty_iff]
    constructor
    · rintro rfl; exact ⟨[], [], rfl⟩
    · rintro ⟨u, v, h⟩
      rcases List.append_eq_nil.mp (List.append_eq_nil.mp h.symm).1 with ⟨-, h2⟩
      exact h2
  | cons b bs ih =>
    simp only [seg, Bool.or_eq_true, isPref_iff, ih]
    constructor
    · rintro (⟨v, h⟩ | ⟨u, v, h⟩)
      · exact ⟨[], v, by simpa using h⟩
      · exact ⟨b :: u, v, by simp [h]⟩
    · rintro ⟨u, v, h⟩
      cases u with
      | nil => exact Or.inl ⟨v, by simpa using h⟩
      | cons x u' =>
        right
        refine ⟨u', v, ?_⟩
        simp only [List.cons_append, List.cons.injEq] at h
        exact h.2

theorem seg_refl (c : List Char) : seg c c = true := by
  rw [seg_iff]; exact ⟨[], [], by simp⟩

/-- A comma-free pattern is a prefix of `x ++ ',' :: y` exactly when it is a
prefix of `x`. -/
theorem isPref_comma (c x y : List Char) (hc : ',' ∉ c) :
    isPref c (x ++ ',' :: y) = isPref c x := by
  induction c generalizing x with
  | nil => simp [isPref]
  | cons a as ih =>
    cases x with
    | nil =>
      simp only [List.nil_append, isPref]
      have ha : a ≠ ',' := fun h => hc (h ▸ List.mem_cons_self a as)
      simp [beq_eq_false_iff_ne.mpr ha]
    | cons b bs =>
      show (a == b && isPref as (bs ++ ',' :: y)) = (a == b && isPref as bs)
      rw [ih bs (fun h => hc (List.mem_cons_of_mem a h))]

/-- A comma-free, nonempty pattern occurs in `x ++ ',' :: y` exactly when it
occurs in `x` or in `y`. -/
theorem seg_comma (c x y : List Char) (hc : ',' ∉ c) (hne : c ≠ []) :
    seg c (x ++ ',' :: y) = true ↔ seg c x = true ∨ seg c y = true := by
  induction x with
  | nil =>
    have hhead : isPref c (',' :: y) = false := by
      cases c with
      | nil => exact absurd rfl hne
      | cons a as =>
        have ha : a ≠ ',' := fun h => hc (h ▸ List.mem_cons_self a as)
        simp [isPref, beq_eq_false_iff_ne.mpr ha]
    have hcl : seg c [] = false := by
      cases c with
      | nil => exact absurd rfl hne
      | cons a as => simp [seg]
    show seg c (',' :: y) = true ↔ seg c [] = true ∨ seg c y = true
    have h1 : seg c (',' :: y) = (isPref c (',' :: y) || seg c y) := rfl
    rw [h1, hhead, hcl]
    simp
  | cons b bs ih =>
    have h1 : seg c ((b :: bs) ++ ',' :: y)
        = (isPref c ((b :: bs) ++ ',' :: y) || seg c (bs ++ ',' :: y)) := rfl
    have h2 : seg c (b :: bs) = (isPref c (b :: bs) || seg c bs) := rfl
    rw [h1, Bool.or_eq_true, isPref_comma c (b :: bs) y hc, ih, h2,
      Bool.or_eq_true]
    tauto

/-- Occurrence of a comma-free, nonempty token inside a comma-join of
pairwise-non-substring, comma-free identifiers is exactly list membership. -/
theorem seg_joinC (c : List Char) (ids : List (List Char))
    (hc : ',' ∉ c) (hne : c ≠ [])
    (hns : ∀ i ∈ ids, seg c i = true → c = i) :
    seg c (joinC ids) = true ↔ c ∈ ids := by
  induction ids with
  | nil =>
    cases c with
    | nil => exact absurd rfl hne
    | cons a as => simp [joinC, seg]
  | cons x rest ih =>
    cases rest with
    | nil =>
      simp only [joinC, List.mem_singleton]
      constructor
      · intro h; exact hns x (List.mem_singleton_self x) h
      · rintro rfl; exact seg_refl c
    | cons y rest' =>
      have hx : ∀ i ∈ y :: rest', seg c i = true → c = i := fun i hi =>
        hns i (List.mem_cons_of_mem x hi)
      simp only [joinC, seg_comma c x (joinC (y :: rest')) hc hne, ih hx,
        List.mem_cons]
      constructor
      · rintro (h | h)
        · exact Or.inl (hns x (List.mem_cons_self x _) h)
        · exact Or.inr h
      · rintro (rfl | h)
        · exact Or.inl (seg_refl c)
        · exact Or.inr h

theorem joinComma_data (ids : List String) :
    (joinComma ids).data = joinC (ids.map String.data) := by
  induction ids with
  | nil => rfl
  | cons x rest ih =>
    cases rest with
    | nil => rfl
    | cons y rest' =>
      show ((x ++ ",") ++ joinComma (y :: rest')).data
          = x.data ++ ',' :: joinC ((y :: rest').map String.data)
      rw [← ih]
      show (x.data ++ ",".data) ++ (joinComma (y :: rest')).data
          = x.data ++ ',' :: (joinComma (y :: rest')).data
      rw [List.append_assoc]
      rfl

/-- C10: membership of a perspective `c` in an Area Record's perspective set is
decided by the substring test `strSeg` on the comma-joined perspective string
(both in `findRecord`, modelling lines 211-212, and in `selfViews`, modelling
lines 191-193).  Under the precondition that identifiers are nonempty,
comma-free, and that no configured identifier is a proper substring of another
(as with distinct fixed-length three-letter codes), the substring test
coincides with true set membership. -/
theorem c10_substring_membership (ids : List String) (c : String)
    (hfree : ',' ∉ c.data) (hne : c.data ≠ [])
    (hns : ∀ i ∈ ids, seg c.data i.data = true → c = i) :
    strSeg c (joinComma ids) = true ↔ c ∈ ids := by
  unfold strSeg
  rw [joinComma_data]
  have hns' : ∀ i ∈ ids.map String.data, seg c.data i = true → c.data = i := by
    intro i hi hseg
    rcases List.mem_map.mp hi with ⟨s, hs, rfl⟩
    exact congrArg String.data (hns s hs hseg)
  rw [seg_joinC c.data (ids.map String.data) hfree hne hns']
  constructor
  · intro h
    rcases List.mem_map.mp h with ⟨s, hs, hd⟩
    have hcs : c = s := by
      cases c with
      | mk dc =>
        cases s with
        | mk ds => exact congrArg String.mk hd.symm
    exact hcs ▸ hs
  · intro h; exact List.mem_map.mpr ⟨c, h, rfl⟩

/-- C10 witness: with the real three-letter codes from the configuration,
the substring test on `"IND,PAK"` finds exactly the members. -/
theorem c10_witness :
    (strSeg "PAK" (joinComma ["IND", "PAK"]) = true ↔ "PAK" ∈ ["IND", "PAK"]) :=
  c10_substring_membership ["IND", "PAK"] "PAK" (by decide) (by decide)
    (by decide)

/-- Boolean lexicographic comparison on character lists (Python string `<=`,
comparing code points). -/
def leChars : List Char → List Char → Bool
  | [], _ => true
  | _ :: _, [] => false
  | a :: as, b :: bs => if a < b then true else if b < a then false else leChars as bs

/-- Python `a <= b` on strings. -/
def leStr (a b : String) : Bool := leChars a.data b.data

/-- The proposition sorted by `sorted(...)`. -/
def strLeProp (a b : String) : Prop := leStr a b = true

instance : DecidableRel strLeProp := fun a b => instDecidableEqBool (leStr a b) true

/-- Python `sorted(...)` over strings. -/
def sortStr (l : List String) : List String := List.insertionSort strLeProp l

/-- Python `min(a, b)` on strings. -/
def minStr (a b : String) : String := if leStr a b then a else b

/-- Python `max(a, b)` on strings. -/
def maxStr (a b : String) : String := if leStr a b then b else a

/-- One row of the `country-areas.csv` table as re-read by
`write_country_boundaries` (lines 185-188): a territory code, the comma-joined
perspective-set string, and the polygon (modelled as an abstract point set). -/
structure AreaRow where
  iso3 : String
  perspective : String
  geometry : Finset ℕ
deriving DecidableEq

/-- A geometry cell of the boundaries table: either the explicit empty-line
sentinel `LINESTRING EMPTY` (line 24) or the WKT of a geometry. -/
inductive WktCell where
  | emptyLine : WktCell
  | wkt : Finset ℕ → WktCell
deriving DecidableEq

/-- One row of the `country-boundaries.csv` table (fieldnames at line 204).
The `perspectives` column is kept as its token list; `rowCsv` joins it with
commas exactly as the writer does. -/
structure BRow where
  iso3a : String
  iso3b : String
  perspectives : List String
  agreed_geometry : WktCell
  disputed_geometry : WktCell
deriving DecidableEq

/-- `enumRows k l` pairs each row with its positional index starting at `k`,
modelling the dataframe row IDs that survive pandas filtering. -/
def enumRows : ℕ → List AreaRow → List (ℕ × AreaRow)
  | _, [] => []
  | k, r :: rs => (k, r) :: enumRows (k + 1) rs

/-- The dataframe filter `gdf[(gdf.iso3 == t) & gdf.perspective.str.contains(c)]`
(lines 211-212), keeping original row IDs. -/
def matchingRows (gdf : List AreaRow) (t c : String) : List (ℕ × AreaRow) :=
  (enumRows 0 gdf).filter fun ir => ir.2.iso3 == t && strSeg c ir.2.perspective

/-- Row lookup with the `assert len(gdf1) == 1` check (lines 213-216): `none`
models the AssertionError abort when zero or several rows match. -/
def findRecord (gdf : List AreaRow) (t c : String) : Option (ℕ × Finset ℕ) :=
  match matchingRows gdf t c with
  | [ir] => some (ir.1, ir.2.geometry)
  | _ => none

/-- `gdf.iloc[i].geometry` (lines 236-240); indices produced by `findRecord`
are always in range. -/
def geomAt (gdf : List AreaRow) (i : ℕ) : Finset ℕ :=
  match gdf.get? i with
  | some r => r.geometry
  | none => ∅

/-- The `self_views` dict (lines 191-193): for each territory, the geometry of
the last row whose `perspective` string contains its own code as a substring.
The build only ever queries keys that are present, so the `∅` default for a
missing key is never exercised. -/
def selfViews (gdf : List AreaRow) (t : String) : Finset ℕ :=
  match ((gdf.filter fun r => r.iso3 == t && strSeg r.iso3 r.perspective).map
      AreaRow.geometry).getLast? with
  | some g => g
  | none => ∅

/-- The `row_pairings` dict (lines 208-217): for each configured perspective
`c`, the pair of dataframe row IDs of `a`'s and `b`'s records under `c`;
`none` models the AssertionError abort. -/
def rowPairings (gdf : List AreaRow) (a b : String) :
    List String → Option (List (String × ℕ × ℕ))
  | [] => some []
  | c :: cs =>
    match findRecord gdf a c, findRecord gdf b c, rowPairings gdf a b cs with
    | some i1, some i2, some rest => some ((c, (i1.1, i2.1)) :: rest)
    | _, _, _ => none

/-- Python `dict.pop(k)` on an association list with unique keys (lines
222-223): the value at `k` plus the list with `k`'s entry removed; `none`
models the KeyError abort. -/
def popKey (rp : List (String × ℕ × ℕ)) (k : String) :
    Option ((ℕ × ℕ) × List (String × ℕ × ℕ)) :=
  match rp.lookup k with
  | some v => some (v, rp.filter fun kv => kv.1 != k)
  | none => none

/-- Adding one third party to the bucket of its row-ID pairing (lines
224-228): append to an existing bucket keyed by the same pairing, else start a
new bucket at the end (Python dict insertion order). -/
def insertParty (acc : List ((ℕ × ℕ) × List String)) (p : ℕ × ℕ) (c : String) :
    List ((ℕ × ℕ) × List String) :=
  match acc with
  | [] => [(p, [c])]
  | (q, cs) :: rest =>
    if q = p then (q, cs ++ [c]) :: rest else (q, cs) :: insertParty rest p c

/-- The `other_pairings` dict (lines 220-228): third parties grouped by their
pair of dataframe row IDs, in first-occurrence order. -/
def groupPairings (rp : List (String × ℕ × ℕ)) : List ((ℕ × ℕ) × List String) :=
  rp.foldl (fun acc cp => insertParty acc cp.2 cp.1) []

/-- The `other_parties` dict (lines 229-231): sorted member tuple to row-ID
pairing. -/
def otherParties (rp : List (String × ℕ × ℕ)) : List (List String × ℕ × ℕ) :=
  (groupPairings rp).map fun g => (sortStr g.2, g.1)

/-- Truthiness of shapely `g.intersects(h)` in the abstract point-set model. -/
def intersectsB (g h : Finset ℕ) : Bool := decide (g ∩ h).Nonempty

/-- Membership test of the `interested_iso3s` set comprehension (lines
260-263). -/
def interestedIn (sv : String → Finset ℕ) (ag dis : Finset ℕ) (o : String) : Bool :=
  intersectsB dis (sv o) || intersectsB ag (sv o)

/-- Serialization guard `dump_wkt(g) if g.length else EMPTY_LINE_WKT` (lines
272-273, 281-282); zero length is modelled as the empty point set. -/
def cellOf (g : Finset ℕ) : WktCell := if g = ∅ then .emptyLine else .wkt g

/-- `reduce(lambda g1, g2: g1.intersection(g2), [line1, line2, linestring])`
(lines 255-256). -/
def groupAgreed (l1 l2 lG : Finset ℕ) : Finset ℕ := l1 ∩ l2 ∩ lG

/-- `reduce(union, lines).difference(agreed)` (line 257). -/
def groupDisputed (l1 l2 lG : Finset ℕ) : Finset ℕ :=
  (l1 ∪ l2 ∪ lG) \ groupAgreed l1 l2 lG

/-- Union of self-view polygon and boundary over a list of parties; the closed
form of what the interested-party loop subtracts. -/
def svbdUnion (sv bd : String → Finset ℕ) : List String → Finset ℕ
  | [] => ∅
  | o :: os => (sv o ∪ bd o) ∪ svbdUnion sv bd os

/-- The interested-party loop (lines 267-277): it REASSIGNS
`agreed_linestring`/`disputed_linestring` on every iteration, so the
subtraction of self-view polygon and boundary accumulates across parties; each
iteration emits a row from the current accumulator, and the final accumulator
is what the disinterested row later sees. -/
def interestedLoop (sv bd : String → Finset ℕ) (a b : String) :
    List String → Finset ℕ → Finset ℕ → List BRow × Finset ℕ × Finset ℕ
  | [], ag, dis => ([], ag, dis)
  | o :: os, ag, dis =>
    let ag2 := (ag \ sv o) \ bd o
    let dis2 := (dis \ sv o) \ bd o
    let rest := interestedLoop sv bd a b os ag2 dis2
    (⟨a, b, [o], cellOf ag2, cellOf dis2⟩ :: rest.1, rest.2)

/-- Rows emitted for one third-party perspective group (lines 254-286): the
interested members' rows (in the set-iteration order chosen by `σ`), then, if
any disinterested member remains, a single aggregated row built from the final
accumulator state. -/
def groupRows (sv bd : String → Finset ℕ) (σ : List String → List String)
    (a b : String) (l1 l2 lG : Finset ℕ) (members : List String) : List BRow :=
  let ag := groupAgreed l1 l2 lG
  let dis := groupDisputed l1 l2 lG
  let inter := members.filter (interestedIn sv ag dis)
  let disin := members.filter fun o => !(interestedIn sv ag dis o)
  let res := interestedLoop sv bd a b (σ inter) ag dis
  res.1 ++ (if disin.isEmpty then ([] : List BRow)
    else [⟨a, b, sortStr disin, cellOf res.2.1, cellOf res.2.2⟩])

/-- The body of the per-pair loop of `write_country_boundaries` (lines
206-286) for one neighbor pair `(a, b)`: the list of boundary rows emitted, or
`none` when an assert or dict lookup aborts the build.  `bd` is the geometric
boundary operator of the engine; `σ` fixes the iteration order of the
`interested_iso3s` Python set (any enumeration of it). -/
def reconcileRows (gdf : List AreaRow) (bd : String → Finset ℕ)
    (σ : List String → List String) (a b : String) (party1 party2 : ℕ × ℕ)
    (rp2 : List (String × ℕ × ℕ)) : List BRow :=
  ⟨a, b, [a], .wkt (geomAt gdf party1.1 ∩ geomAt gdf party1.2), .emptyLine⟩ ::
  ⟨a, b, [b], .wkt (geomAt gdf party2.1 ∩ geomAt gdf party2.2), .emptyLine⟩ ::
  (otherParties rp2).flatMap fun g =>
    groupRows (selfViews gdf) bd σ a b
      (geomAt gdf party1.1 ∩ geomAt gdf party1.2)
      (geomAt gdf party2.1 ∩ geomAt gdf party2.2)
      (geomAt gdf g.2.1 ∩ geomAt gdf g.2.2) g.1

/-- The per-pair row emission continued: abort on failed asserts or dict
lookups, else emit the first-party rows and the group rows. -/
def reconcilePair (gdf : List AreaRow) (bd : String → Finset ℕ)
    (σ : List String → List String) (cfgKeys : List String) (a b : String) :
    Option (List BRow) :=
  match rowPairings gdf a b cfgKeys with
  | none => none
  | some rp =>
    match popKey rp a with
    | none => none
    | some party1 =>
      match popKey party1.2 b with
      | none => none
      | some party2 =>
        some (reconcileRows gdf bd σ a b party1.1 party2.1 party2.2)

/-- The full row stream of `write_country_boundaries` (lines 203-286), given
the enumeration order of the `iso3_pairings` set as a list of pairs; `none`
models an aborted build. -/
def writeBoundaries (gdf : List AreaRow) (bd : String → Finset ℕ)
    (σ : List String → List String) (cfgKeys : List String) :
    List (String × String) → Option (List BRow)
  | [] => some []
  | ab :: ps =>
    (reconcilePair gdf bd σ cfgKeys ab.1 ab.2).bind fun rs =>
      (writeBoundaries gdf bd σ cfgKeys ps).bind fun rest => some (rs ++ rest)

/-- `(s \ t) \ u = s \ (t ∪ u)`: successive `difference` calls subtract the
union. -/
theorem sdiffPair (s t u : Finset ℕ) : (s \ t) \ u = s \ (t ∪ u) := by
  ext x
  simp only [Finset.mem_sdiff, Finset.mem_union]
  tauto

/-- A four-territory area table in which both `AAA` and `BBB` have a single
record shared by all perspectives, while third parties `CCC` and `DDD` hold
self-views `{0}` and `{1}` inside the shared border line `{0, 1}`. -/
def gdfA : List AreaRow := [
  ⟨"AAA", "AAA,BBB,CCC,DDD", {0, 1, 2}⟩,
  ⟨"BBB", "AAA,BBB,CCC,DDD", {0, 1, 3}⟩,
  ⟨"CCC", "CCC", {0}⟩,
  ⟨"DDD", "DDD", {1}⟩]

/-- The configured territory codes for the example tables. -/
def cfgABCD : List String := ["AAA", "BBB", "CCC", "DDD"]

/-- A geometric boundary operator under which every self-view has empty
boundary (e.g. all polygons' boundaries avoid the abstract sample points). -/
def bdZero : String → Finset ℕ := fun _ => ∅

/-- C1 counterexample: on `gdfA` both `CCC` and `DDD` are interested members
of the single third-party group, whose original agreed line is `{0, 1}` and
disputed line is empty.  The row emitted for `DDD` (processed second) carries
the empty-line sentinel, because `CCC`'s self-view subtraction from the
running accumulator is still in effect; recomputing `DDD`'s row from the
group's ORIGINAL agreed line, as the claim states, gives `{0}` instead.  The
rows are therefore not independent of the other interested members. -/
theorem c1_counterexample :
    reconcilePair gdfA bdZero id cfgABCD "AAA" "BBB" = some [
      ⟨"AAA", "BBB", ["AAA"], .wkt {0, 1}, .emptyLine⟩,
      ⟨"AAA", "BBB", ["BBB"], .wkt {0, 1}, .emptyLine⟩,
      ⟨"AAA", "BBB", ["CCC"], .wkt {1}, .emptyLine⟩,
      ⟨"AAA", "BBB", ["DDD"], .emptyLine, .emptyLine⟩] ∧
    groupAgreed {0, 1} {0, 1} {0, 1} = {0, 1} ∧
    cellOf ((({0, 1} : Finset ℕ) \ selfViews gdfA "DDD") \ bdZero "DDD")
      = .wkt {0} ∧
    WktCell.emptyLine ≠ WktCell.wkt {0} := by decide

/-- C1 amended: the row emitted for the interested member at position `i` of
the iteration order is computed from the group's agreed/disputed lines minus
the self-view polygons AND boundaries of all members processed so far (its
own included) — the subtractions accumulate across the loop instead of being
recomputed from the original lines per member. -/
theorem c1_amended (sv bd : String → Finset ℕ) (a b : String)
    (ord : List String) (ag0 dis0 : Finset ℕ) (i : ℕ) (o : String)
    (ho : ord.get? i = some o) :
    ((interestedLoop sv bd a b ord ag0 dis0).1).get? i =
      some ⟨a, b, [o], cellOf (ag0 \ svbdUnion sv bd (ord.take (i + 1))),
        cellOf (dis0 \ svbdUnion sv bd (ord.take (i + 1)))⟩ := by
  induction ord generalizing i ag0 dis0 with
  | nil => cases ho
  | cons x xs ih =>
    cases i with
    | zero =>
      have hx : x = o := by simpa using ho
      subst hx
      show some _ = some _
      have hag : (ag0 \ sv x) \ bd x = ag0 \ svbdUnion sv bd [x] := by
        rw [sdiffPair]
        simp [svbdUnion]
      have hdis : (dis0 \ sv x) \ bd x = dis0 \ svbdUnion sv bd [x] := by
        rw [sdiffPair]
        simp [svbdUnion]
      simp only [interestedLoop, List.take, hag, hdis]
    | succ j =>
      have ho' : xs.get? j = some o := by simpa using ho
      have step := ih ((ag0 \ sv x) \ bd x) ((dis0 \ sv x) \ bd x) j ho'
      show ((interestedLoop sv bd a b xs ((ag0 \ sv x) \ bd x)
          ((dis0 \ sv x) \ bd x)).1).get? j = _
      rw [step]
      have hu : svbdUnion sv bd ((x :: xs).take (j + 2))
          = (sv x ∪ bd x) ∪ svbdUnion sv bd (xs.take (j + 1)) := rfl
      have hag : ((ag0 \ sv x) \ bd x) \ svbdUnion sv bd (xs.take (j + 1))
          = ag0 \ svbdUnion sv bd ((x :: xs).take (j + 2)) := by
        rw [hu, sdiffPair, sdiffPair, Finset.union_assoc]
      have hdis : ((dis0 \ sv x) \ bd x) \ svbdUnion sv bd (xs.take (j + 1))
          = dis0 \ svbdUnion sv bd ((x :: xs).take (j + 2)) := by
        rw [hu, sdiffPair, sdiffPair, Finset.union_assoc]
      rw [hag, hdis]

/-- C1 amended witness: on `gdfA`'s group, the second interested member
`DDD`'s row subtracts both `CCC`'s and `DDD`'s self-views from the original
agreed line `{0, 1}`. -/
theorem c1_amended_witness :
    ((interestedLoop (selfViews gdfA) bdZero "AAA" "BBB" ["CCC", "DDD"]
        {0, 1} ∅).1).get? 1 =
      some ⟨"AAA", "BBB", ["DDD"],
        cellOf (({0, 1} : Finset ℕ)
          \ svbdUnion (selfViews gdfA) bdZero (["CCC", "DDD"].take 2)),
        cellOf ((∅ : Finset ℕ)
          \ svbdUnion (selfViews gdfA) bdZero (["CCC", "DDD"].take 2))⟩ :=
  c1_amended (selfViews gdfA) bdZero "AAA" "BBB" ["CCC", "DDD"] {0, 1} ∅ 1
    "DDD" (by decide)

/-- The final accumulator of the interested-party loop: the group lines minus
the union of every processed member's self-view polygon and boundary. -/
theorem interestedLoop_final (sv bd : String → Finset ℕ) (a b : String)
    (ord : List String) (ag0 dis0 : Finset ℕ) :
    (interestedLoop sv bd a b ord ag0 dis0).2 =
      (ag0 \ svbdUnion sv bd ord, dis0 \ svbdUnion sv bd ord) := by
  induction ord generalizing ag0 dis0 with
  | nil => simp [interestedLoop, svbdUnion]
  | cons x xs ih =>
    show (interestedLoop sv bd a b xs ((ag0 \ sv x) \ bd x)
        ((dis0 \ sv x) \ bd x)).2 = _
    rw [ih]
    have h1 : ((ag0 \ sv x) \ bd x) \ svbdUnion sv bd xs
        = ag0 \ svbdUnion sv bd (x :: xs) := by
      rw [sdiffPair, sdiffPair, ← Finset.union_assoc]
      rfl
    have h2 : ((dis0 \ sv x) \ bd x) \ svbdUnion sv bd xs
        = dis0 \ svbdUnion sv bd (x :: xs) := by
      rw [sdiffPair, sdiffPair, ← Finset.union_assoc]
      rfl
    rw [h1, h2]

/-- An area table like `gdfA` except that `DDD`'s self-view `{7}` is disjoint
from the shared border line `{0, 1, 2}`, making `DDD` a disinterested third
party while `CCC` stays interested. -/
def gdfB : List AreaRow := [
  ⟨"AAA", "AAA,BBB,CCC,DDD", {0, 1, 2}⟩,
  ⟨"BBB", "AAA,BBB,CCC,DDD", {0, 1, 2}⟩,
  ⟨"CCC", "CCC", {0}⟩,
  ⟨"DDD", "DDD", {7}⟩]

/-- C2 counterexample: on `gdfB` the single third-party group has unfiltered
agreed line `{0, 1, 2}` (and empty disputed line), `CCC` is interested and
`DDD` disinterested.  The single disinterested row emitted for `DDD` carries
`{1, 2}` — the line left in the accumulator AFTER `CCC`'s self-view and
boundary were subtracted — not the group's unfiltered agreed line
`{0, 1, 2}` the claim promises. -/
theorem c2_counterexample :
    reconcilePair gdfB bdZero id cfgABCD "AAA" "BBB" = some [
      ⟨"AAA", "BBB", ["AAA"], .wkt {0, 1, 2}, .emptyLine⟩,
      ⟨"AAA", "BBB", ["BBB"], .wkt {0, 1, 2}, .emptyLine⟩,
      ⟨"AAA", "BBB", ["CCC"], .wkt {1, 2}, .emptyLine⟩,
      ⟨"AAA", "BBB", ["DDD"], .wkt {1, 2}, .emptyLine⟩] ∧
    groupAgreed {0, 1, 2} {0, 1, 2} {0, 1, 2} = {0, 1, 2} ∧
    WktCell.wkt ({1, 2} : Finset ℕ) ≠ WktCell.wkt {0, 1, 2} := by decide

/-- C2 amended: when the disinterested subset of a group is non-empty, the
single row emitted for its sorted members carries the group's agreed and
disputed lines minus the self-view polygons and boundaries of ALL interested
members of the group (the accumulator left by the interested-party loop), not
the unfiltered lines. -/
theorem c2_amended (sv bd : String → Finset ℕ) (σ : List String → List String)
    (a b : String) (l1 l2 lG : Finset ℕ) (members : List String)
    (hne : (members.filter fun o =>
      !(interestedIn sv (groupAgreed l1 l2 lG) (groupDisputed l1 l2 lG) o)).isEmpty
        = false) :
    groupRows sv bd σ a b l1 l2 lG members =
      (interestedLoop sv bd a b
        (σ (members.filter
          (interestedIn sv (groupAgreed l1 l2 lG) (groupDisputed l1 l2 lG))))
        (groupAgreed l1 l2 lG) (groupDisputed l1 l2 lG)).1 ++
      [⟨a, b,
        sortStr (members.filter fun o =>
          !(interestedIn sv (groupAgreed l1 l2 lG) (groupDisputed l1 l2 lG) o)),
        cellOf ((groupAgreed l1 l2 lG) \ svbdUnion sv bd
          (σ (members.filter
            (interestedIn sv (groupAgreed l1 l2 lG) (groupDisputed l1 l2 lG))))),
        cellOf ((groupDisputed l1 l2 lG) \ svbdUnion sv bd
          (σ (members.filter
            (interestedIn sv (groupAgreed l1 l2 lG) (groupDisputed l1 l2 lG)))))⟩] := by
  simp only [groupRows, interestedLoop_final, hne, Bool.false_eq_true,
    if_false]

/-- C2 amended witness: the concrete `gdfB` group, where `CCC`'s subtraction
is visible in the disinterested row. -/
theorem c2_amended_witness :
    groupRows (selfViews gdfB) bdZero id "AAA" "BBB" {0, 1, 2} {0, 1, 2}
        {0, 1, 2} ["CCC", "DDD"] =
      (interestedLoop (selfViews gdfB) bdZero "AAA" "BBB"
        (id (["CCC", "DDD"].filter
          (interestedIn (selfViews gdfB) (groupAgreed {0, 1, 2} {0, 1, 2} {0, 1, 2})
            (groupDisputed {0, 1, 2} {0, 1, 2} {0, 1, 2}))))
        (groupAgreed {0, 1, 2} {0, 1, 2} {0, 1, 2})
        (groupDisputed {0, 1, 2} {0, 1, 2} {0, 1, 2})).1 ++
      [⟨"AAA", "BBB",
        sortStr (["CCC", "DDD"].filter fun o =>
          !(interestedIn (selfViews gdfB) (groupAgreed {0, 1, 2} {0, 1, 2} {0, 1, 2})
            (groupDisputed {0, 1, 2} {0, 1, 2} {0, 1, 2}) o)),
        cellOf ((groupAgreed {0, 1, 2} {0, 1, 2} {0, 1, 2})
          \ svbdUnion (selfViews gdfB) bdZero
          (id (["CCC", "DDD"].filter
            (interestedIn (selfViews gdfB) (groupAgreed {0, 1, 2} {0, 1, 2} {0, 1, 2})
              (groupDisputed {0, 1, 2} {0, 1, 2} {0, 1, 2}))))),
        cellOf ((groupDisputed {0, 1, 2} {0, 1, 2} {0, 1, 2})
          \ svbdUnion (selfViews gdfB) bdZero
          (id (["CCC", "DDD"].filter
            (interestedIn (selfViews gdfB) (groupAgreed {0, 1, 2} {0, 1, 2} {0, 1, 2})
              (groupDisputed {0, 1, 2} {0, 1, 2} {0, 1, 2})))))⟩] :=
  c2_amended (selfViews gdfB) bdZero id "AAA" "BBB" {0, 1, 2} {0, 1, 2}
    {0, 1, 2} ["CCC", "DDD"] (by decide)

/-- Inserting a party into its pairing bucket adds exactly that party to the
multiset of grouped members. -/
theorem insertParty_flat (acc : List ((ℕ × ℕ) × List String)) (p : ℕ × ℕ)
    (c : String) :
    ((insertParty acc p c).flatMap fun g => g.2).Perm
      ((acc.flatMap fun g => g.2) ++ [c]) := by
  induction acc with
  | nil => simp [insertParty]
  | cons g rest ih =>
    rcases g with ⟨q, cs⟩
    by_cases hq : q = p
    · simp only [insertParty, if_pos hq, List.flatMap_cons]
      rw [List.append_assoc, List.append_assoc]
      exact List.Perm.append_left cs (List.perm_append_singleton c _).symm
    · simp only [insertParty, if_neg hq, List.flatMap_cons]
      rw [List.append_assoc]
      exact List.Perm.append_left cs ih

/-- Every member of a bucket after insertion either came from an existing
bucket with the same key or is the inserted party with the inserted key. -/
theorem insertParty_mem (acc : List ((ℕ × ℕ) × List String)) (p : ℕ × ℕ)
    (c : String) (g : (ℕ × ℕ) × List String) (hg : g ∈ insertParty acc p c)
    (x : String) (hx : x ∈ g.2) :
    (∃ g0 ∈ acc, g0.1 = g.1 ∧ x ∈ g0.2) ∨ (x = c ∧ g.1 = p) := by
  induction acc with
  | nil =>
    simp only [insertParty, List.mem_singleton] at hg
    subst hg
    right
    exact ⟨by simpa using hx, rfl⟩
  | cons g1 rest ih =>
    rcases g1 with ⟨q, cs⟩
    by_cases hq : q = p
    · simp only [insertParty, if_pos hq, List.mem_cons] at hg
      rcases hg with rfl | hg
      · rcases List.mem_append.mp hx with hx1 | hx1
        · exact Or.inl ⟨(q, cs), List.mem_cons_self _ _, rfl, hx1⟩
        · exact Or.inr ⟨by simpa using hx1, hq⟩
      · exact Or.inl ⟨g, List.mem_cons_of_mem _ hg, rfl, hx⟩
    · simp only [insertParty, if_neg hq, List.mem_cons] at hg
      rcases hg with rfl | hg
      · exact Or.inl ⟨(q, cs), List.mem_cons_self _ _, rfl, hx⟩
      · rcases ih hg with ⟨g0, hg0, hk, hx0⟩ | hr
        · exact Or.inl ⟨g0, List.mem_cons_of_mem _ hg0, hk, hx0⟩
        · exact Or.inr hr

/-- Keys after insertion are old keys or the inserted pairing. -/
theorem insertParty_keys (acc : List ((ℕ × ℕ) × List String)) (p : ℕ × ℕ)
    (c : String) (x : ℕ × ℕ)
    (hx : x ∈ (insertParty acc p c).map fun g => g.1) :
    (x ∈ acc.map fun g => g.1) ∨ x = p := by
  induction acc with
  | nil => simp only [insertParty, List.map_cons, List.map_nil] at hx; right; simpa using hx
  | cons g1 rest ih =>
    rcases g1 with ⟨q, cs⟩
    by_cases hq : q = p
    · simp only [insertParty, if_pos hq, List.map_cons, List.mem_cons] at hx ⊢
      tauto
    · simp only [insertParty, if_neg hq, List.map_cons, List.mem_cons] at hx ⊢
      rcases hx with rfl | hx
      · exact Or.inl (Or.inl rfl)
      · rcases ih hx with h | h
        · exact Or.inl (Or.inr h)
        · exact Or.inr h

/-- Insertion preserves distinctness of the bucket keys. -/
theorem insertParty_keys_nodup (acc : List ((ℕ × ℕ) × List String)) (p : ℕ × ℕ)
    (c : String) (hn : (acc.map fun g => g.1).Nodup) :
    ((insertParty acc p c).map fun g => g.1).Nodup := by
  induction acc with
  | nil => simp [insertParty]
  | cons g1 rest ih =>
    rcases g1 with ⟨q, cs⟩
    have hn2 : (q :: rest.map fun g => g.1).Nodup := hn
    rcases List.nodup_cons.mp hn2 with ⟨hq1, hq2⟩
    by_cases hq : q = p
    · simpa [insertParty, if_pos hq] using hn
    · simp only [insertParty, if_neg hq, List.map_cons, List.nodup_cons]
      refine ⟨fun hmem => ?_, ih hq2⟩
      rcases insertParty_keys rest p c q hmem with h | h
      · exact hq1 h
      · exact hq (h)

/-- Fold-level version of `insertParty_flat`: grouping preserves the multiset
of third parties. -/
theorem groupPairings_aux_flat (rp : List (String × ℕ × ℕ)) :
    ∀ acc, (((rp.foldl (fun acc cp => insertParty acc cp.2 cp.1) acc)).flatMap
        fun g => g.2).Perm
      ((acc.flatMap fun g => g.2) ++ rp.map Prod.fst) := by
  induction rp with
  | nil => intro acc; simp
  | cons cp rest ih =>
    intro acc
    rw [List.foldl_cons]
    refine (ih (insertParty acc cp.2 cp.1)).trans ?_
    refine (List.Perm.append_right _ (insertParty_flat acc cp.2 cp.1)).trans ?_
    rw [List.append_assoc]
    exact List.Perm.refl _

/-- The members of all perspective groups are, as a multiset, exactly the
third parties that were grouped. -/
theorem groupPairings_flat (rp : List (String × ℕ × ℕ)) :
    ((groupPairings rp).flatMap fun g => g.2).Perm (rp.map Prod.fst) := by
  simpa [groupPairings] using groupPairings_aux_flat rp []

/-- Fold-level version of `insertParty_mem`. -/
theorem groupPairings_aux_mem (rp : List (String × ℕ × ℕ)) :
    ∀ acc g, g ∈ rp.foldl (fun acc cp => insertParty acc cp.2 cp.1) acc →
      ∀ x ∈ g.2, (∃ g0 ∈ acc, g0.1 = g.1 ∧ x ∈ g0.2) ∨ (x, g.1) ∈ rp := by
  induction rp with
  | nil => intro acc g hg x hx; exact Or.inl ⟨g, hg, rfl, hx⟩
  | cons cp rest ih =>
    intro acc g hg x hx
    rw [List.foldl_cons] at hg
    rcases ih (insertParty acc cp.2 cp.1) g hg x hx with ⟨g0, hg0, hk, hx0⟩ | hr
    · rcases insertParty_mem acc cp.2 cp.1 g0 hg0 x hx0 with ⟨g1, hg1, hk1, hx1⟩ | ⟨hxc, hgp⟩
      · exact Or.inl ⟨g1, hg1, hk1.trans hk, hx1⟩
      · have hg1 : g.1 = cp.2 := hk ▸ hgp
        refine Or.inr ?_
        rw [hxc, hg1]
        exact List.mem_cons_self _ _
    · exact Or.inr (List.mem_cons_of_mem cp hr)

/-- A member of a perspective group was grouped under exactly that group's
pair of dataframe row IDs. -/
theorem groupPairings_mem (rp : List (String × ℕ × ℕ))
    (g : (ℕ × ℕ) × List String) (hg : g ∈ groupPairings rp) (x : String)
    (hx : x ∈ g.2) : (x, g.1) ∈ rp := by
  rcases groupPairings_aux_mem rp [] g hg x hx with ⟨g0, hg0, _, _⟩ | hr
  · cases hg0
  · exact hr

/-- Fold-level key distinctness. -/
theorem groupPairings_aux_keys (rp : List (String × ℕ × ℕ)) :
    ∀ acc, ((acc.map fun g => g.1).Nodup) →
      (((rp.foldl (fun acc cp => insertParty acc cp.2 cp.1) acc)).map
        fun g => g.1).Nodup := by
  induction rp with
  | nil => intro acc hn; simpa using hn
  | cons cp rest ih =>
    intro acc hn
    rw [List.foldl_cons]
    exact ih (insertParty acc cp.2 cp.1) (insertParty_keys_nodup acc cp.2 cp.1 hn)

/-- Distinct perspective groups carry distinct row-ID pairings. -/
theorem groupPairings_keys_nodup (rp : List (String × ℕ × ℕ)) :
    ((groupPairings rp).map fun g => g.1).Nodup :=
  groupPairings_aux_keys rp [] (by simp)

/-- `List.lookup` on an association list with distinct keys finds the unique
entry. -/
theorem lookup_of_mem_nodup {β : Type} (l : List (String × β)) (k : String)
    (v : β) (hn : (l.map Prod.fst).Nodup) (hm : (k, v) ∈ l) :
    l.lookup k = some v := by
  induction l with
  | nil => cases hm
  | cons kv rest ih =>
    rcases kv with ⟨k2, v2⟩
    have hn2 : (k2 :: rest.map Prod.fst).Nodup := hn
    rcases List.nodup_cons.mp hn2 with ⟨hk2, hrest⟩
    rcases List.mem_cons.mp hm with heq | hmem
    · obtain ⟨rfl, rfl⟩ : k = k2 ∧ v = v2 := by simpa using heq
      simp [List.lookup]
    · have hk : k ≠ k2 := by
        rintro rfl
        exact hk2 (List.mem_map.mpr ⟨(k, v), hmem, rfl⟩)
      have hbeq : (k == k2) = false := beq_eq_false_iff_ne.mpr hk
      simp only [List.lookup, hbeq]
      exact ih hrest hmem

/-- An area table where territory `AAA` has two distinct records (dataframe
rows 0 and 1, for perspectives `CCC` and `DDD`) that carry value-equal
geometry `{0, 1}`. -/
def gdfC : List AreaRow := [
  ⟨"AAA", "CCC", {0, 1}⟩,
  ⟨"AAA", "DDD", {0, 1}⟩,
  ⟨"BBB", "CCC,DDD", {1, 2}⟩,
  ⟨"AAA", "AAA,BBB", {0, 1}⟩,
  ⟨"BBB", "AAA,BBB", {1, 2}⟩]

/-- C3 counterexample: on `gdfC`, the reconciliation of pair `(AAA, BBB)`
resolves third party `CCC` to dataframe rows `(0, 2)` and third party `DDD`
to rows `(1, 2)`.  Grouping is by those row-ID pairs (lines 224-228), so
`CCC` and `DDD` land in two DIFFERENT groups, even though their boundary
lines are equal as geometric values (both `{0,1} ∩ {1,2} = {1}`).  This
refutes "same group if and only if equal line geometry": the code groups by
identity of the underlying records, not by geometric value. -/
theorem c3_counterexample :
    rowPairings gdfC "AAA" "BBB" cfgABCD =
      some [("AAA", 3, 4), ("BBB", 3, 4), ("CCC", 0, 2), ("DDD", 1, 2)] ∧
    popKey [("AAA", 3, 4), ("BBB", 3, 4), ("CCC", 0, 2), ("DDD", 1, 2)] "AAA" =
      some ((3, 4), [("BBB", 3, 4), ("CCC", 0, 2), ("DDD", 1, 2)]) ∧
    popKey [("BBB", 3, 4), ("CCC", 0, 2), ("DDD", 1, 2)] "BBB" =
      some ((3, 4), [("CCC", 0, 2), ("DDD", 1, 2)]) ∧
    otherParties [("CCC", 0, 2), ("DDD", 1, 2)] =
      [(["CCC"], 0, 2), (["DDD"], 1, 2)] ∧
    geomAt gdfC 0 ∩ geomAt gdfC 2 = geomAt gdfC 1 ∩ geomAt gdfC 2 := by decide

/-- C3 amended: two third parties are placed in the same perspective group if
and only if they resolve to the same PAIR OF AREA RECORDS (dataframe row
IDs) — identity of the records, not value equality of the lines: the grouped
members are exactly the third parties (a partition), every member of a group
maps to that group's row-ID pair, and distinct groups carry distinct row-ID
pairs.  Same records imply equal lines, but value-equal lines from distinct
records are split into distinct groups (see the counterexample). -/
theorem c3_amended (rp : List (String × ℕ × ℕ))
    (hn : (rp.map Prod.fst).Nodup) :
    (((otherParties rp).flatMap fun g => g.1).Perm (rp.map Prod.fst)) ∧
    (∀ g ∈ otherParties rp, ∀ c ∈ g.1, rp.lookup c = some g.2) ∧
    ((otherParties rp).Pairwise fun g h => g.2 ≠ h.2) := by
  refine ⟨?_, ?_, ?_⟩
  · have h1 : ((otherParties rp).flatMap fun g => g.1)
        = (groupPairings rp).flatMap fun g => sortStr g.2 := by
      simp [otherParties, List.flatMap_map]
    rw [h1]
    exact (List.Perm.flatMap_left _ fun g _ =>
      List.perm_insertionSort strLeProp g.2).trans (groupPairings_flat rp)
  · intro g hg c hc
    rcases List.mem_map.mp hg with ⟨g0, hg0, rfl⟩
    have hc0 : c ∈ g0.2 :=
      (List.perm_insertionSort strLeProp g0.2).mem_iff.mp hc
    exact lookup_of_mem_nodup rp c g0.1 hn (groupPairings_mem rp g0 hg0 c hc0)
  · exact List.pairwise_map.mpr (List.pairwise_map.mp (groupPairings_keys_nodup rp))

/-- C3 amended witness: the partition and key properties on the concrete
third-party pairings of `gdfC`. -/
theorem c3_amended_witness :
    ((((otherParties [("CCC", 0, 2), ("DDD", 1, 2)]).flatMap fun g => g.1).Perm
      ([("CCC", (0, 2)), ("DDD", (1, 2))].map Prod.fst)) ∧
    (∀ g ∈ otherParties [("CCC", 0, 2), ("DDD", 1, 2)], ∀ c ∈ g.1,
      [("CCC", (0, 2)), ("DDD", (1, 2))].lookup c = some g.2) ∧
    ((otherParties [("CCC", 0, 2), ("DDD", 1, 2)]).Pairwise
      fun g h => g.2 ≠ h.2)) :=
  c3_amended [("CCC", 0, 2), ("DDD", 1, 2)] (by decide)

/-- Splitting a character list at commas: recovers the perspective tokens of
a comma-joined perspective-set string. -/
def splitComma : List Char → List (List Char)
  | [] => [[]]
  | c :: rest =>
    if c = ',' then [] :: splitComma rest
    else
      match splitComma rest with
      | [] => [[c]]
      | g :: gs => (c :: g) :: gs

/-- The perspective tokens of an area row, by true comma-splitting (set
membership, not substring). -/
def perspTokens (r : AreaRow) : List (List Char) := splitComma r.perspective.data

/-- `geopandas.sjoin(gdf, gdf, predicate="touches")` (line 197): EVERY row of
the table is paired with EVERY row whose geometry it touches — there is no
restriction to rows sharing a perspective. -/
def sjoinTouches (tch : Finset ℕ → Finset ℕ → Bool) (gdf : List AreaRow) :
    List (String × String) :=
  gdf.flatMap fun r1 =>
    (gdf.filter fun r2 => tch r1.geometry r2.geometry).map fun r2 =>
      (r1.iso3, r2.iso3)

/-- The `iso3_pairings` set (lines 198-201): canonicalized `(min, max)`
territory pairs, with set semantics modelled by deduplication. -/
def iso3Pairings (tch : Finset ℕ → Finset ℕ → Bool) (gdf : List AreaRow) :
    List (String × String) :=
  ((sjoinTouches tch gdf).map fun p => (minStr p.1 p.2, maxStr p.1 p.2)).dedup

/-- Modelled from the spec's words, for comparison with `iso3Pairings`: a
canonical pair `(x, y)` is a spec-neighbor when there is a SINGLE perspective
`P` present in the area set such that the two touching records both carry `P`
in their perspective sets. -/
def specNeighborPair (tch : Finset ℕ → Finset ℕ → Bool) (gdf : List AreaRow)
    (x y : String) : Prop :=
  ∃ p ∈ gdf.flatMap perspTokens, ∃ r1 ∈ gdf, ∃ r2 ∈ gdf,
    p ∈ perspTokens r1 ∧ p ∈ perspTokens r2 ∧
    tch r1.geometry r2.geometry = true ∧
    minStr r1.iso3 r2.iso3 = x ∧ maxStr r1.iso3 r2.iso3 = y

/-- A two-territory table whose records belong to unrelated perspectives
`PPP` and `QQQ`. -/
def gdfD : List AreaRow := [⟨"AAA", "PPP", {0}⟩, ⟨"BBB", "QQQ", {1}⟩]

/-- A touches predicate under which the two distinct polygons of `gdfD` touch
(and nothing touches itself). -/
def tchNe : Finset ℕ → Finset ℕ → Bool := fun g1 g2 => decide (g1 ≠ g2)

/-- C4 counterexample: `sjoin(gdf, gdf, predicate="touches")` compares ALL
polygon rows pairwise, with no restriction to a shared perspective.  On
`gdfD` the pair `(AAA, BBB)` is emitted although `AAA`'s only record belongs
to perspective `PPP` and `BBB`'s to the unrelated `QQQ` — no single
perspective contains polygons of both territories, so the claim's
characterization (and its assertion that unrelated perspectives are never
compared) fails. -/
theorem c4_counterexample :
    ("AAA", "BBB") ∈ iso3Pairings tchNe gdfD ∧
    ¬ specNeighborPair tchNe gdfD "AAA" "BBB" := by
  refine ⟨by decide, ?_⟩
  unfold specNeighborPair
  decide

/-- C4 amended: `(x, y)` is emitted by the neighbor pairing exactly when SOME
two Area Records — of any perspectives, not necessarily sharing one — have
touching geometries and canonicalize to `(x, y)`. -/
theorem c4_amended (tch : Finset ℕ → Finset ℕ → Bool) (gdf : List AreaRow)
    (x y : String) :
    (x, y) ∈ iso3Pairings tch gdf ↔
      ∃ r1 ∈ gdf, ∃ r2 ∈ gdf, tch r1.geometry r2.geometry = true ∧
        minStr r1.iso3 r2.iso3 = x ∧ maxStr r1.iso3 r2.iso3 = y := by
  unfold iso3Pairings sjoinTouches
  rw [List.mem_dedup]
  constructor
  · intro h
    rcases List.mem_map.mp h with ⟨pq, hpq, heq⟩
    rcases List.mem_flatMap.mp hpq with ⟨r1, hr1, hmem⟩
    rcases List.mem_map.mp hmem with ⟨r2, hr2f, hpq2⟩
    rcases List.mem_filter.mp hr2f with ⟨hr2, htch⟩
    subst hpq2
    have h1 := congrArg Prod.fst heq
    have h2 := congrArg Prod.snd heq
    exact ⟨r1, hr1, r2, hr2, htch, h1, h2⟩
  · rintro ⟨r1, hr1, r2, hr2, htch, hx, hy⟩
    refine List.mem_map.mpr ⟨(r1.iso3, r2.iso3), ?_, ?_⟩
    · exact List.mem_flatMap.mpr
        ⟨r1, hr1, List.mem_map.mpr ⟨r2, List.mem_filter.mpr ⟨hr2, htch⟩, rfl⟩⟩
    · show (minStr r1.iso3 r2.iso3, maxStr r1.iso3 r2.iso3) = (x, y)
      rw [hx, hy]

/-- Rendering of a boundaries geometry cell (`dump_wkt` at write time, or the
explicit sentinel). -/
def cellWkt (wr : Finset ℕ → String) : WktCell → String
  | .emptyLine => "LINESTRING EMPTY"
  | .wkt g => wr g

/-- Minimal CSV quoting as done by `csv.DictWriter`: a field containing a
comma is wrapped in double quotes. -/
def csvField (s : String) : String :=
  if ',' ∈ s.data then "\x22" ++ s ++ "\x22" else s

/-- One serialized CSV line of the boundaries table, with the perspective
token list comma-joined exactly as at lines 245, 249, 275 and 284. -/
def rowCsv (wr : Finset ℕ → String) (r : BRow) : String :=
  r.iso3a ++ "," ++ r.iso3b ++ "," ++ csvField (joinComma r.perspectives) ++ ","
    ++ csvField (cellWkt wr r.agreed_geometry) ++ ","
    ++ csvField (cellWkt wr r.disputed_geometry)

/-- Newline-joined lines. -/
def joinLines : List String → String
  | [] => ""
  | [x] => x
  | x :: y :: rest => x ++ "\n" ++ joinLines (y :: rest)

/-- The bytes of the boundaries table body produced by one run (header
omitted: it is a constant). -/
def boundariesCsv (wr : Finset ℕ → String) : Option (List BRow) → String
  | none => ""
  | some rows => joinLines (rows.map (rowCsv wr))

/-- A concrete injective WKT renderer for the abstract point-set geometries:
lists the points (all below 8 in the examples) in ascending order. -/
def wrEnum : Finset ℕ → String := fun g =>
  "LINESTRING " ++
    joinComma (((List.range 8).filter fun n => decide (n ∈ g)).map toString)

/-- C6 counterexample: the interested-party loop at line 267 iterates the
Python set `interested_iso3s`, whose order is not canonicalized (string
hashing varies between processes).  `id` and `List.reverse` are two
enumerations of the same interested set `{CCC, DDD}` of `gdfA`'s single
group; the two runs differ byte-wise — and not merely in row order: because
the subtractions accumulate, the geometry contents differ too.  So re-running
the build does not guarantee byte-identical output, and rows are NOT emitted
in a canonical sort order independent of set iteration. -/
theorem c6_counterexample :
    boundariesCsv wrEnum
        (writeBoundaries gdfA bdZero id cfgABCD [("AAA", "BBB")]) ≠
      boundariesCsv wrEnum
        (writeBoundaries gdfA bdZero List.reverse cfgABCD [("AAA", "BBB")]) := by
  decide

/-- A run that succeeded reconciled every enumerated pair. -/
theorem writeBoundaries_mem_some (gdf : List AreaRow) (bd : String → Finset ℕ)
    (σ : List String → List String) (cfg : List String)
    (ps : List (String × String)) (r : List BRow)
    (h : writeBoundaries gdf bd σ cfg ps = some r) :
    ∀ ab ∈ ps, ∃ rs, reconcilePair gdf bd σ cfg ab.1 ab.2 = some rs := by
  induction ps generalizing r with
  | nil => intro ab hab; cases hab
  | cons ab2 ps2 ih =>
    intro ab hab
    rcases Option.bind_eq_some.mp h with ⟨rs, hra, hb⟩
    rcases Option.bind_eq_some.mp hb with ⟨rest, hw, _⟩
    rcases List.mem_cons.mp hab with rfl | hab2
    · exact ⟨rs, hra⟩
    · exact ih rest hw ab hab2

/-- A run succeeds whenever every enumerated pair reconciles. -/
theorem writeBoundaries_some_of (gdf : List AreaRow) (bd : String → Finset ℕ)
    (σ : List String → List String) (cfg : List String)
    (ps : List (String × String))
    (h : ∀ ab ∈ ps, ∃ rs, reconcilePair gdf bd σ cfg ab.1 ab.2 = some rs) :
    ∃ r, writeBoundaries gdf bd σ cfg ps = some r := by
  induction ps with
  | nil => exact ⟨[], rfl⟩
  | cons ab ps2 ih =>
    rcases h ab (List.mem_cons_self ab ps2) with ⟨rs, hra⟩
    rcases ih (fun ab2 hab2 => h ab2 (List.mem_cons_of_mem ab hab2)) with ⟨rest, hw⟩
    refine ⟨rs ++ rest, ?_⟩
    show (reconcilePair gdf bd σ cfg ab.1 ab.2).bind _ = _
    rw [hra, Option.some_bind, hw, Option.some_bind]

/-- C6 amended: with the per-group interested-member iteration order held
fixed, two runs that enumerate the neighbor-pair set in different orders
produce the same MULTISET of rows (the table is unique up to row
reordering); byte-identical output additionally requires the iteration
orders of the `iso3_pairings` and `interested_iso3s` sets to coincide
between runs, which the code does not enforce (see the counterexample). -/
theorem c6_amended (gdf : List AreaRow) (bd : String → Finset ℕ)
    (σ : List String → List String) (cfg : List String)
    (p1 p2 : List (String × String)) (hp : p1.Perm p2) (r1 r2 : List BRow)
    (h1 : writeBoundaries gdf bd σ cfg p1 = some r1)
    (h2 : writeBoundaries gdf bd σ cfg p2 = some r2) :
    r1.Perm r2 := by
  induction hp generalizing r1 r2 with
  | nil =>
    have e1 : some ([] : List BRow) = some r1 := h1
    have e2 : some ([] : List BRow) = some r2 := h2
    rw [← Option.some_inj.mp e1, ← Option.some_inj.mp e2]
  | cons ab p ih =>
    rcases Option.bind_eq_some.mp h1 with ⟨rs1, hra1, hb1⟩
    rcases Option.bind_eq_some.mp hb1 with ⟨rest1, hw1, he1⟩
    rcases Option.bind_eq_some.mp h2 with ⟨rs2, hra2, hb2⟩
    rcases Option.bind_eq_some.mp hb2 with ⟨rest2, hw2, he2⟩
    have hrs : rs1 = rs2 := Option.some_inj.mp (hra1 ▸ hra2)
    rw [← Option.some_inj.mp he1, ← Option.some_inj.mp he2, hrs]
    exact List.Perm.append_left rs2 (ih rest1 rest2 hw1 hw2)
  | swap x y l =>
    rcases Option.bind_eq_some.mp h1 with ⟨rsy, hray, hb1⟩
    rcases Option.bind_eq_some.mp hb1 with ⟨t1, hw1, he1⟩
    rcases Option.bind_eq_some.mp hw1 with ⟨rsx, hrax, hb1x⟩
    rcases Option.bind_eq_some.mp hb1x with ⟨u1, hu1, he1x⟩
    rcases Option.bind_eq_some.mp h2 with ⟨rsx2, hrax2, hb2⟩
    rcases Option.bind_eq_some.mp hb2 with ⟨t2, hw2, he2⟩
    rcases Option.bind_eq_some.mp hw2 with ⟨rsy2, hray2, hb2y⟩
    rcases Option.bind_eq_some.mp hb2y with ⟨u2, hu2, he2y⟩
    have hx : rsx = rsx2 := Option.some_inj.mp (hrax ▸ hrax2)
    have hy : rsy = rsy2 := Option.some_inj.mp (hray ▸ hray2)
    have hu : u1 = u2 := Option.some_inj.mp (hu1 ▸ hu2)
    rw [← Option.some_inj.mp he1, ← Option.some_inj.mp he2,
      ← Option.some_inj.mp he1x, ← Option.some_inj.mp he2y,
      ← hx, ← hy, ← hu, ← List.append_assoc, ← List.append_assoc]
    exact List.Perm.append_right u1 List.perm_append_comm
  | @trans l1 l2 l3 p q ih1 ih2 =>
    have hall := writeBoundaries_mem_some gdf bd σ cfg l1 r1 h1
    have hmid : ∀ ab ∈ l2, ∃ rs, reconcilePair gdf bd σ cfg ab.1 ab.2 = some rs :=
      fun ab hab => hall ab (p.mem_iff.mpr hab)
    rcases writeBoundaries_some_of gdf bd σ cfg l2 hmid with ⟨rm, hm⟩
    exact (ih1 r1 rm h1 hm).trans (ih2 rm r2 hm h2)

/-- C6 amended witness: a successful run's rows are a permutation of
themselves under the identity reordering of the pair enumeration. -/
theorem c6_amended_witness :
    ([⟨"AAA", "BBB", ["AAA"], .wkt {0, 1}, .emptyLine⟩,
      ⟨"AAA", "BBB", ["BBB"], .wkt {0, 1}, .emptyLine⟩,
      ⟨"AAA", "BBB", ["CCC"], .wkt {1}, .emptyLine⟩,
      ⟨"AAA", "BBB", ["DDD"], .emptyLine, .emptyLine⟩] : List BRow).Perm
    [⟨"AAA", "BBB", ["AAA"], .wkt {0, 1}, .emptyLine⟩,
      ⟨"AAA", "BBB", ["BBB"], .wkt {0, 1}, .emptyLine⟩,
      ⟨"AAA", "BBB", ["CCC"], .wkt {1}, .emptyLine⟩,
      ⟨"AAA", "BBB", ["DDD"], .emptyLine, .emptyLine⟩] :=
  c6_amended gdfA bdZero id cfgABCD [("AAA", "BBB")] [("AAA", "BBB")]
    (List.Perm.refl _) _ _ (by decide) (by decide)

/-- The Shape Compositor's fatal configuration error, `InvalidRecipeError` of
the spec: it covers both the `assert shapes[0][0] == "plus"` failure at line
165 and the malformed-operator `ValueError` at line 178; either aborts the
run with no polygon produced. -/
inductive RecipeError where
  | invalidRecipe : RecipeError
deriving DecidableEq

/-- One recipe operation `(direction, element_type, osm_id)`. -/
abbrev ShapeOp := String × String × String

/-- `combine_pair` (lines 168-179), generic in the geometry engine: `load`
models `load_shape`, `u`/`d` the engine's `Union`/`Difference`.  The
`geom1 is None` branches of the source are dead here: both call sites fold
from an actual geometry (the empty polygon or a base polygon), never from
`None`. -/
def combine_pair {G : Type} (load : String → String → G) (u d : G → G → G)
    (geom1 : G) (shape2 : ShapeOp) : Except RecipeError G :=
  if shape2.1 = "plus" then .ok (u geom1 (load shape2.2.1 shape2.2.2))
  else if shape2.1 = "minus" then .ok (d geom1 (load shape2.2.1 shape2.2.2))
  else .error .invalidRecipe

/-- `functools.reduce(combine_pair, shapes, start)`. -/
def foldCombine {G : Type} (load : String → String → G) (u d : G → G → G) :
    G → List ShapeOp → Except RecipeError G
  | g, [] => .ok g
  | g, s :: rest =>
    match combine_pair load u d g s with
    | .ok g2 => foldCombine load u d g2 rest
    | .error e => .error e

/-- `combine_shapes` (lines 164-166): asserts that the first operation is
`plus`, then folds from the empty polygon.  An empty recipe also aborts
(IndexError on `shapes[0]`). -/
def combine_shapes {G : Type} (load : String → String → G) (u d : G → G → G)
    (emptyPolygon : G) (shapes : List ShapeOp) : Except RecipeError G :=
  match shapes with
  | [] => .error .invalidRecipe
  | s :: _ =>
    if s.1 = "plus" then foldCombine load u d emptyPolygon shapes
    else .error .invalidRecipe

/-- The fold aborts with the recipe error as soon as any operator is neither
`plus` nor `minus`. -/
theorem foldCombine_error {G : Type} (load : String → String → G)
    (u d : G → G → G) :
    ∀ (l : List ShapeOp) (g : G),
      (∃ t ∈ l, t.1 ≠ "plus" ∧ t.1 ≠ "minus") →
      foldCombine load u d g l = .error .invalidRecipe := by
  intro l
  induction l with
  | nil =>
    rintro g ⟨t, ht, -⟩
    cases ht
  | cons s rest ih =>
    rintro g ⟨t, ht, hp, hm⟩
    rcases List.mem_cons.mp ht with rfl | ht2
    · simp only [foldCombine, combine_pair, if_neg hp, if_neg hm]
    · by_cases hsp : s.1 = "plus"
      · simp only [foldCombine, combine_pair, if_pos hsp]
        exact ih _ ⟨t, ht2, hp, hm⟩
      · by_cases hsm : s.1 = "minus"
        · simp only [foldCombine, combine_pair, if_neg hsp, if_pos hsm]
          exact ih _ ⟨t, ht2, hp, hm⟩
        · simp only [foldCombine, combine_pair, if_neg hsp, if_neg hsm]

/-- C9: a recipe whose first operation is `minus` (= the spec's `subtract`),
and more generally any recipe containing a malformed operator, fails with the
`InvalidRecipeError` — no polygon is produced. -/
theorem c9_invalid_recipe {G : Type} (load : String → String → G)
    (u d : G → G → G) (emptyPolygon : G) (s : ShapeOp) (rest : List ShapeOp)
    (h : s.1 = "minus" ∨ ∃ t ∈ s :: rest, t.1 ≠ "plus" ∧ t.1 ≠ "minus") :
    combine_shapes load u d emptyPolygon (s :: rest) = .error .invalidRecipe := by
  by_cases hs : s.1 = "plus"
  · rcases h with hmin | ⟨t, ht, hp, hm⟩
    · exact absurd (hmin ▸ hs) (by decide)
    · rcases List.mem_cons.mp ht with rfl | ht2
      · exact absurd hs hp
      · simp only [combine_shapes, if_pos hs, foldCombine, combine_pair,
          if_pos hs]
        exact foldCombine_error load u d rest _ ⟨t, ht2, hp, hm⟩
  · simp [combine_shapes, if_neg hs]

/-- C9 witness: the concrete recipe whose single (first) operation is a
subtraction fails with the recipe error on the point-set engine. -/
theorem c9_witness :
    combine_shapes (fun _ _ => (∅ : Finset ℕ)) (· ∪ ·) (· \ ·) ∅
      [("minus", "relation", "60189")] = .error .invalidRecipe :=
  c9_invalid_recipe (fun _ _ => (∅ : Finset ℕ)) (· ∪ ·) (· \ ·) ∅
    ("minus", "relation", "60189") [] (Or.inl rfl)

/-- Coordinate-level geometry for the serialization model: a list of vertex
coordinates. -/
abbrev CGeom := List (ℚ × ℚ)

/-- Rounding a coordinate to 7 decimal digits, as
`shapely.wkt.dumps(shape, rounding_precision=7)` does (lines 181-182);
half-way ties are abstracted as rounding up. -/
def roundTo7 (q : ℚ) : ℚ := ((q * 10 ^ 7 + 1 / 2).floor : ℚ) / 10 ^ 7

/-- The coordinates written by `dump_wkt` for the boundaries table. -/
def dump_wkt (g : CGeom) : CGeom := g.map fun p => (roundTo7 p.1, roundTo7 p.2)

/-- The coordinates written by OGR `geom.ExportToWkt()` (lines 299 and 307):
the engine's default serialization, which does not apply the 7-digit
rounding. -/
def exportToWkt (g : CGeom) : CGeom := g

/-- A rational representable with 7 decimal digits. -/
def sevenDecimal (q : ℚ) : Prop := ∃ n : ℤ, q = (n : ℚ) / 10 ^ 7

/-- A parsed territory configuration (`config["base"]`,
`config["perspectives"]`). -/
structure AreaConfig where
  base : List ShapeOp
  perspectives : List (String × List ShapeOp)

/-- One row of the `country-areas.csv` table at the coordinate level. -/
structure CARow where
  iso3 : String
  perspective : String
  geometry : CGeom
deriving DecidableEq

/-- The perspective rows of one territory (lines 301-307): each perspective
recipe folds on top of the base geometry, and the polygon cell comes from
`ExportToWkt`. -/
def perspectiveRows (load : String → String → CGeom)
    (u d : CGeom → CGeom → CGeom) (iso3a : String) (geom1 : CGeom) :
    List (String × List ShapeOp) → Except RecipeError (List CARow)
  | [] => .ok []
  | (iso3b, shapes) :: rest =>
    match foldCombine load u d geom1 shapes with
    | .error e => .error e
    | .ok geom2 =>
      match perspectiveRows load u d iso3a geom1 rest with
      | .error e => .error e
      | .ok rs => .ok (⟨iso3a, iso3b, exportToWkt geom2⟩ :: rs)

/-- `write_country_areas` (lines 288-307): per territory, the neutral row
(perspective set = all configured keys minus the territory's own perspective
recipes, sorted and comma-joined), then one row per perspective recipe.
Every polygon cell is serialized with `ExportToWkt`, never with
`dump_wkt`. -/
def write_country_areas (load : String → String → CGeom)
    (u d : CGeom → CGeom → CGeom) (allKeys : List String) :
    List (String × AreaConfig) → Except RecipeError (List CARow)
  | [] => .ok []
  | (iso3a, config) :: rest =>
    match combine_shapes load u d [] config.base with
    | .error e => .error e
    | .ok geom1 =>
      match perspectiveRows load u d iso3a geom1 config.perspectives with
      | .error e => .error e
      | .ok prows =>
        match write_country_areas load u d allKeys rest with
        | .error e => .error e
        | .ok rrows =>
          .ok (⟨iso3a,
            joinComma (sortStr (allKeys.filter fun k =>
              !((config.perspectives.map Prod.fst).contains k))),
            exportToWkt geom1⟩ :: (prows ++ rrows))

/-- C7 counterexample configuration: one territory built from one `plus`
source whose geometry has a coordinate of 10⁻⁸. -/
def cfgC7 : List (String × AreaConfig) :=
  [("AAA", ⟨[("plus", "relation", "9")], []⟩)]

/-- The source adapter for the counterexample. -/
def loadC7 : String → String → CGeom := fun _ _ => [(1 / 10 ^ 8, 0)]

/-- Union on coordinate lists for the counterexample engine. -/
def unionC7 : CGeom → CGeom → CGeom := fun g1 g2 => g1 ++ g2

/-- Difference on coordinate lists for the counterexample engine. -/
def diffC7 : CGeom → CGeom → CGeom := fun g1 _ => g1

/-- C7 counterexample: the areas table is written with `ExportToWkt`
(lines 299 and 307), not with the 7-digit `dump_wkt`; feeding a source
polygon with coordinate 10⁻⁸ produces an areas row whose geometry cell
carries 10⁻⁸ — a coordinate that is NOT representable at 7 decimal digits.
So not every geometry written to the two tables is at fixed 7-decimal
precision. -/
theorem c7_counterexample :
    write_country_areas loadC7 unionC7 diffC7 ["AAA"] cfgC7 =
      .ok [⟨"AAA", "AAA", [((1 : ℚ) / 10 ^ 8, 0)]⟩] ∧
    ¬ sevenDecimal ((1 : ℚ) / 10 ^ 8) := by
  constructor
  · rfl
  · rintro ⟨n, hn⟩
    have h2 : (10 : ℚ) ^ 7 = (n : ℚ) * 10 ^ 8 := by
      field_simp at hn
      linarith
    have h3 : (10 : ℤ) ^ 7 = n * 10 ^ 8 := by exact_mod_cast h2
    omega

/-- C7 amended: the boundaries-table lines go through `dump_wkt`, whose every
output coordinate is an integer multiple of 10⁻⁷ (fixed 7-decimal
precision); the areas-table polygons go through `ExportToWkt`, which leaves
coordinates exactly as computed, so the 7-decimal guarantee holds for the
borders table only (see the counterexample for an areas row that violates
it). -/
theorem c7_amended :
    (∀ g : CGeom, ∀ p ∈ dump_wkt g, sevenDecimal p.1 ∧ sevenDecimal p.2) ∧
    (∀ g : CGeom, exportToWkt g = g) := by
  constructor
  · intro g p hp
    rcases List.mem_map.mp hp with ⟨q, -, rfl⟩
    refine ⟨⟨(q.1 * 10 ^ 7 + 1 / 2).floor, ?_⟩,
      ⟨(q.2 * 10 ^ 7 + 1 / 2).floor, ?_⟩⟩
    · rfl
    · rfl
  · intro g
    rfl

/-- Indices recorded by `enumRows` point back at the original rows. -/
theorem enumRows_get (k : ℕ) (l : List AreaRow) :
    ∀ ir ∈ enumRows k l, k ≤ ir.1 ∧ l.get? (ir.1 - k) = some ir.2 := by
  induction l generalizing k with
  | nil => intro ir h; cases h
  | cons r rs ih =>
    intro ir h
    rcases List.mem_cons.mp h with rfl | h2
    · exact ⟨le_refl k, by simp⟩
    · rcases ih (k + 1) ir h2 with ⟨hk, hg⟩
      refine ⟨le_trans (Nat.le_succ k) hk, ?_⟩
      have hd : ir.1 - k = (ir.1 - (k + 1)) + 1 := by omega
      rw [hd]
      simpa using hg

/-- The geometry returned by `findRecord` is the geometry at the returned
dataframe row ID. -/
theorem findRecord_geomAt (gdf : List AreaRow) (t c : String) (i : ℕ)
    (g : Finset ℕ) (h : findRecord gdf t c = some (i, g)) :
    geomAt gdf i = g := by
  unfold findRecord at h
  cases hm : matchingRows gdf t c with
  | nil => rw [hm] at h; cases h
  | cons ir rest =>
    cases rest with
    | cons ir2 rest2 => rw [hm] at h; cases h
    | nil =>
      rw [hm] at h
      have h2 := Option.some_inj.mp h
      have hi : ir.1 = i := congrArg Prod.fst h2
      have hgm : ir.2.geometry = g := congrArg Prod.snd h2
      have hmem : ir ∈ matchingRows gdf t c := by
        rw [hm]; exact List.mem_singleton_self ir
      have hmem2 : ir ∈ enumRows 0 gdf := List.mem_of_mem_filter hmem
      rcases enumRows_get 0 gdf ir hmem2 with ⟨-, hg⟩
      rw [Nat.sub_zero] at hg
      rw [← hi, ← hgm]
      unfold geomAt
      rw [hg]

/-- Structure of a successful `rowPairings`: one entry per configured
perspective, in order, whose row-ID pairs come from successful
`findRecord`s. -/
theorem rowPairings_spec (gdf : List AreaRow) (a b : String) :
    ∀ (cs : List String) (rp : List (String × ℕ × ℕ)),
      rowPairings gdf a b cs = some rp →
      rp.map Prod.fst = cs ∧
      ∀ e ∈ rp, ∃ p1 p2, findRecord gdf a e.1 = some p1 ∧
        findRecord gdf b e.1 = some p2 ∧ e.2.1 = p1.1 ∧ e.2.2 = p2.1 := by
  intro cs
  induction cs with
  | nil =>
    intro rp h
    have h0 : ([] : List (String × ℕ × ℕ)) = rp := Option.some_inj.mp h
    subst h0
    exact ⟨rfl, fun e he => absurd he (List.not_mem_nil e)⟩
  | cons c cs2 ih =>
    intro rp h
    unfold rowPairings at h
    cases h1 : findRecord gdf a c with
    | none => rw [h1] at h; cases h
    | some i1 =>
      cases h2 : findRecord gdf b c with
      | none => rw [h1, h2] at h; cases h
      | some i2 =>
        cases h3 : rowPairings gdf a b cs2 with
        | none => rw [h1, h2, h3] at h; cases h
        | some rest =>
          rw [h1, h2, h3] at h
          have he : (c, (i1.1, i2.1)) :: rest = rp := Option.some_inj.mp h
          subst he
          rcases ih rest h3 with ⟨hkeys, hmem⟩
          refine ⟨by simp [hkeys], ?_⟩
          intro e hee
          rcases List.mem_cons.mp hee with rfl | he2
          · exact ⟨i1, i2, h1, h2, rfl, rfl⟩
          · exact hmem e he2

/-- Structure of a successful `popKey`. -/
theorem popKey_eq (rp : List (String × ℕ × ℕ)) (k : String)
    (pr : (ℕ × ℕ) × List (String × ℕ × ℕ)) (h : popKey rp k = some pr) :
    rp.lookup k = some pr.1 ∧ pr.2 = rp.filter fun kv => kv.1 != k := by
  unfold popKey at h
  cases hl : rp.lookup k with
  | none => rw [hl] at h; cases h
  | some v2 =>
    rw [hl] at h
    have h2 := Option.some_inj.mp h
    refine ⟨?_, (congrArg Prod.snd h2).symm⟩
    exact congrArg (fun p => some p.1) h2

/-- `map fst` commutes with filtering by key. -/
theorem map_fst_filter_ne (rp : List (String × ℕ × ℕ)) (k : String) :
    ((rp.filter fun kv => kv.1 != k).map Prod.fst)
      = (rp.map Prod.fst).filter fun s => s != k := by
  induction rp with
  | nil => rfl
  | cons kv rest ih =>
    cases hbk : (kv.1 != k) with
    | false => simp [List.filter_cons, hbk, ih]
    | true => simp [List.filter_cons, hbk, ih]

/-- Re-adding a removed key in front of a deduplicated key list is a
permutation of the original. -/
theorem filter_ne_perm (cfg : List String) (a : String) (hn : cfg.Nodup)
    (ha : a ∈ cfg) :
    (a :: (cfg.filter fun s => s != a)).Perm cfg := by
  induction cfg with
  | nil => cases ha
  | cons x xs ih =>
    rcases List.nodup_cons.mp hn with ⟨hx, hxs⟩
    rcases List.mem_cons.mp ha with rfl | ha2
    · have hfx : (a != a) = false := by simp
      have hfilter : xs.filter (fun s => s != a) = xs :=
        List.filter_eq_self.mpr fun s hs => by
          have hne : s ≠ a := fun he => hx (he ▸ hs)
          simp [bne_iff_ne, hne]
      simp [List.filter_cons, hfx, hfilter]
    · have hax : a ≠ x := fun he => hx (he ▸ ha2)
      have hfx : (x != a) = true := bne_iff_ne.mpr (Ne.symm hax)
      simp only [List.filter_cons, hfx, if_pos]
      refine (List.Perm.swap x a _).trans ?_
      exact List.Perm.cons x (ih hxs ha2)

/-- Removing two distinct present keys and re-adding them in front is a
permutation of the key list. -/
theorem cons_filter_perm (cfg : List String) (a b : String) (hn : cfg.Nodup)
    (ha : a ∈ cfg) (hb : b ∈ cfg) (hab : a ≠ b) :
    (a :: b :: ((cfg.filter fun s => s != a).filter fun s => s != b)).Perm cfg := by
  have h1 : (a :: cfg.filter fun s => s != a).Perm cfg := filter_ne_perm cfg a hn ha
  have hb2 : b ∈ cfg.filter fun s => s != a :=
    List.mem_filter.mpr ⟨hb, bne_iff_ne.mpr (Ne.symm hab)⟩
  have hn2 : (cfg.filter fun s => s != a).Nodup := List.Nodup.filter _ hn
  have h2 : (b :: (cfg.filter fun s => s != a).filter fun s => s != b).Perm
      (cfg.filter fun s => s != a) := filter_ne_perm _ b hn2 hb2
  exact (List.Perm.cons a h2).trans h1

/-- The perspective tokens of the interested rows are the iteration order. -/
theorem interestedLoop_persp (sv bd : String → Finset ℕ) (a b : String) :
    ∀ (ord : List String) (ag dis : Finset ℕ),
      ((interestedLoop sv bd a b ord ag dis).1).flatMap BRow.perspectives = ord := by
  intro ord
  induction ord with
  | nil => intro ag dis; rfl
  | cons x xs ih =>
    intro ag dis
    simp only [interestedLoop, List.flatMap_cons, ih, List.singleton_append]

/-- The perspective tokens of one group's rows are, as a multiset, exactly
the group's members. -/
theorem groupRows_perm (sv bd : String → Finset ℕ)
    (σ : List String → List String) (hσ : ∀ l, (σ l).Perm l)
    (a b : String) (l1 l2 lG : Finset ℕ) (members : List String) :
    ((groupRows sv bd σ a b l1 l2 lG members).flatMap BRow.perspectives).Perm
      members := by
  simp only [groupRows]
  rw [List.flatMap_append, interestedLoop_persp]
  by_cases hd : (members.filter fun o =>
      !(interestedIn sv (groupAgreed l1 l2 lG) (groupDisputed l1 l2 lG) o)).isEmpty = true
  · rw [if_pos hd, List.flatMap_nil, List.append_nil]
    have hnil : (members.filter fun o =>
        !(interestedIn sv (groupAgreed l1 l2 lG) (groupDisputed l1 l2 lG) o)) = [] :=
      List.isEmpty_iff.mp hd
    have hall : members.filter
        (interestedIn sv (groupAgreed l1 l2 lG) (groupDisputed l1 l2 lG)) = members :=
      List.filter_eq_self.mpr fun o ho => by
        have h2 := List.filter_eq_nil_iff.mp hnil o ho
        simpa using h2
    conv_rhs => rw [← hall]
    exact hσ _
  · rw [if_neg hd, List.flatMap_cons, List.flatMap_nil, List.append_nil]
    refine List.Perm.trans
      (List.Perm.append (hσ _) (List.perm_insertionSort strLeProp _)) ?_
    exact List.filter_append_perm _ members

/-- The groups' member lists are, as a multiset, the grouped third-party
keys. -/
theorem otherParties_flat_perm (rp : List (String × ℕ × ℕ)) :
    ((otherParties rp).flatMap fun g => g.1).Perm (rp.map Prod.fst) := by
  have h1 : ((otherParties rp).flatMap fun g => g.1)
      = (groupPairings rp).flatMap fun g => sortStr g.2 := by
    simp [otherParties, List.flatMap_map]
  rw [h1]
  exact (List.Perm.flatMap_left _ fun g _ =>
    List.perm_insertionSort strLeProp g.2).trans (groupPairings_flat rp)

/-- Decomposition of a successful `reconcilePair`. -/
theorem reconcilePair_eq (gdf : List AreaRow) (bd : String → Finset ℕ)
    (σ : List String → List String) (cfg : List String) (a b : String)
    (rows : List BRow) (hr : reconcilePair gdf bd σ cfg a b = some rows) :
    ∃ rp party1 party2,
      rowPairings gdf a b cfg = some rp ∧
      popKey rp a = some party1 ∧
      popKey party1.2 b = some party2 ∧
      rows = reconcileRows gdf bd σ a b party1.1 party2.1 party2.2 := by
  unfold reconcilePair at hr
  split at hr
  · cases hr
  · rename_i rp h1
    split at hr
    · cases hr
    · rename_i party1 h2
      split at hr
      · cases hr
      · rename_i party2 h3
        exact ⟨rp, party1, party2, h1, h2, h3, (Option.some_inj.mp hr).symm⟩

/-- The per-pair row stream's perspective tokens are, as a multiset, the two
parties plus the remaining keys. -/
theorem reconcileRows_flatMap_perm (gdf : List AreaRow) (bd : String → Finset ℕ)
    (σ : List String → List String) (hσ : ∀ l, (σ l).Perm l) (a b : String)
    (party1 party2 : ℕ × ℕ) (rp2 : List (String × ℕ × ℕ)) :
    ((reconcileRows gdf bd σ a b party1 party2 rp2).flatMap
      BRow.perspectives).Perm (a :: b :: rp2.map Prod.fst) := by
  unfold reconcileRows
  rw [List.flatMap_cons, List.flatMap_cons, List.singleton_append,
    List.singleton_append]
  refine List.Perm.cons a (List.Perm.cons b ?_)
  rw [List.flatMap_assoc]
  refine List.Perm.trans ?_ (otherParties_flat_perm rp2)
  exact List.Perm.flatMap_left _ fun g _ =>
    groupRows_perm (selfViews gdf) bd σ hσ a b _ _ _ g.1

/-- C5: for a reconciled neighbor pair `(a, b)` with distinct configured
territories, the perspective sets of the emitted Border Records — `{a}`,
`{b}`, one singleton per interested third party and one set per group's
disinterested remainder — are pairwise disjoint, and their union is exactly
the set of configured perspectives.  `σ` may be any enumeration of the
interested sets (Python set iteration visits each element once). -/
theorem c5_perspective_partition (gdf : List AreaRow) (bd : String → Finset ℕ)
    (σ : List String → List String) (cfg : List String) (a b : String)
    (rows : List BRow) (hσ : ∀ l, (σ l).Perm l) (hn : cfg.Nodup)
    (ha : a ∈ cfg) (hb : b ∈ cfg) (hab : a ≠ b)
    (hr : reconcilePair gdf bd σ cfg a b = some rows) :
    ((rows.map BRow.perspectives).Pairwise List.Disjoint) ∧
    (∀ c, (∃ r ∈ rows, c ∈ r.perspectives) ↔ c ∈ cfg) := by
  rcases reconcilePair_eq gdf bd σ cfg a b rows hr with
    ⟨rp, party1, party2, hrp, hpa, hpb, hrows⟩
  rcases rowPairings_spec gdf a b cfg rp hrp with ⟨hkeys, -⟩
  rcases popKey_eq rp a party1 hpa with ⟨-, hfa⟩
  rcases popKey_eq party1.2 b party2 hpb with ⟨-, hfb⟩
  have hk2 : party2.2.map Prod.fst
      = (cfg.filter fun s => s != a).filter fun s => s != b := by
    rw [hfb, map_fst_filter_ne, hfa, map_fst_filter_ne, hkeys]
  have hperm : (rows.flatMap BRow.perspectives).Perm cfg := by
    rw [hrows]
    refine (reconcileRows_flatMap_perm gdf bd σ hσ a b party1.1 party2.1
      party2.2).trans ?_
    rw [hk2]
    exact cons_filter_perm cfg a b hn ha hb hab
  constructor
  · have hnodup : (rows.flatMap BRow.perspectives).Nodup := hperm.nodup_iff.mpr hn
    rw [List.flatMap_def] at hnodup
    exact (List.nodup_flatten.mp hnodup).2
  · intro c
    rw [← hperm.mem_iff, List.mem_flatMap]

/-- C5 witness: the partition property on the concrete `gdfA`
reconciliation. -/
theorem c5_witness :
    ((([⟨"AAA", "BBB", ["AAA"], .wkt {0, 1}, .emptyLine⟩,
      ⟨"AAA", "BBB", ["BBB"], .wkt {0, 1}, .emptyLine⟩,
      ⟨"AAA", "BBB", ["CCC"], .wkt {1}, .emptyLine⟩,
      ⟨"AAA", "BBB", ["DDD"], .emptyLine, .emptyLine⟩] : List BRow).map
        BRow.perspectives).Pairwise List.Disjoint) ∧
    (∀ c, (∃ r ∈ ([⟨"AAA", "BBB", ["AAA"], .wkt {0, 1}, .emptyLine⟩,
      ⟨"AAA", "BBB", ["BBB"], .wkt {0, 1}, .emptyLine⟩,
      ⟨"AAA", "BBB", ["CCC"], .wkt {1}, .emptyLine⟩,
      ⟨"AAA", "BBB", ["DDD"], .emptyLine, .emptyLine⟩] : List BRow),
        c ∈ r.perspectives) ↔ c ∈ cfgABCD) :=
  c5_perspective_partition gdfA bdZero id cfgABCD "AAA" "BBB" _
    (fun l => List.Perm.refl l) (by decide) (by decide) (by decide) (by decide)
    (by decide)

/-- C8: for every reconciled neighbor pair `(a, b)` of distinct configured
territories, the first two rows are always emitted, in order: the `{a}` row
whose agreed geometry is the intersection of `a`'s and `b`'s polygons under
perspective `a`, and the `{b}` row with the intersection under perspective
`b`; both rows' disputed geometry is always the explicit empty-line
sentinel. -/
theorem c8_first_party_rows (gdf : List AreaRow) (bd : String → Finset ℕ)
    (σ : List String → List String) (cfg : List String) (a b : String)
    (rows : List BRow) (p1 p2 q1 q2 : ℕ × Finset ℕ)
    (hn : cfg.Nodup) (ha : a ∈ cfg) (hb : b ∈ cfg) (hab : a ≠ b)
    (hr : reconcilePair gdf bd σ cfg a b = some rows)
    (h1 : findRecord gdf a a = some p1) (h2 : findRecord gdf b a = some p2)
    (h3 : findRecord gdf a b = some q1) (h4 : findRecord gdf b b = some q2) :
    ∃ rest, rows =
      ⟨a, b, [a], .wkt (p1.2 ∩ p2.2), .emptyLine⟩ ::
      ⟨a, b, [b], .wkt (q1.2 ∩ q2.2), .emptyLine⟩ :: rest := by
  rcases reconcilePair_eq gdf bd σ cfg a b rows hr with
    ⟨rp, party1, party2, hrp, hpa, hpb, hrows⟩
  rcases rowPairings_spec gdf a b cfg rp hrp with ⟨hkeys, hmem⟩
  have hknd : (rp.map Prod.fst).Nodup := by rw [hkeys]; exact hn
  rcases popKey_eq rp a party1 hpa with ⟨hlookA, hfa⟩
  rcases popKey_eq party1.2 b party2 hpb with ⟨hlookB, hfb⟩
  have hamem : a ∈ rp.map Prod.fst := by rw [hkeys]; exact ha
  rcases List.mem_map.mp hamem with ⟨ea, hea, heqa⟩
  have heaa : (a, ea.2) ∈ rp := by
    rw [← heqa]
    exact hea
  have hlook2 : rp.lookup a = some ea.2 := lookup_of_mem_nodup rp a ea.2 hknd heaa
  have hp1v : party1.1 = ea.2 := Option.some_inj.mp (hlookA.symm.trans hlook2)
  rcases hmem ea hea with ⟨P1, P2, hf1, hf2, he1, he2⟩
  rw [heqa] at hf1 hf2
  have hP1 : P1 = p1 := Option.some_inj.mp (hf1.symm.trans h1)
  have hP2 : P2 = p2 := Option.some_inj.mp (hf2.symm.trans h2)
  have hkeys2 : party1.2.map Prod.fst = cfg.filter fun s => s != a := by
    rw [hfa, map_fst_filter_ne, hkeys]
  have hknd2 : (party1.2.map Prod.fst).Nodup := by
    rw [hkeys2]
    exact List.Nodup.filter _ hn
  have hbmem : b ∈ party1.2.map Prod.fst := by
    rw [hkeys2]
    exact List.mem_filter.mpr ⟨hb, bne_iff_ne.mpr (Ne.symm hab)⟩
  rcases List.mem_map.mp hbmem with ⟨eb, heb, heqb⟩
  have hebb : (b, eb.2) ∈ party1.2 := by
    rw [← heqb]
    exact heb
  have hlookb2 : party1.2.lookup b = some eb.2 :=
    lookup_of_mem_nodup party1.2 b eb.2 hknd2 hebb
  have hp2v : party2.1 = eb.2 := Option.some_inj.mp (hlookB.symm.trans hlookb2)
  have hebrp : eb ∈ rp := by
    rw [hfa] at heb
    exact List.mem_of_mem_filter heb
  rcases hmem eb hebrp with ⟨Q1, Q2, hg1, hg2, hee1, hee2⟩
  rw [heqb] at hg1 hg2
  have hQ1 : Q1 = q1 := Option.some_inj.mp (hg1.symm.trans h3)
  have hQ2 : Q2 = q2 := Option.some_inj.mp (hg2.symm.trans h4)
  have hp11 : party1.1.1 = p1.1 := by rw [hp1v, he1, hP1]
  have hp12 : party1.1.2 = p2.1 := by rw [hp1v, he2, hP2]
  have hp21 : party2.1.1 = q1.1 := by rw [hp2v, hee1, hQ1]
  have hp22 : party2.1.2 = q2.1 := by rw [hp2v, hee2, hQ2]
  have hga1 : geomAt gdf p1.1 = p1.2 :=
    findRecord_geomAt gdf a a p1.1 p1.2 (by rw [h1])
  have hga2 : geomAt gdf p2.1 = p2.2 :=
    findRecord_geomAt gdf b a p2.1 p2.2 (by rw [h2])
  have hgb1 : geomAt gdf q1.1 = q1.2 :=
    findRecord_geomAt gdf a b q1.1 q1.2 (by rw [h3])
  have hgb2 : geomAt gdf q2.1 = q2.2 :=
    findRecord_geomAt gdf b b q2.1 q2.2 (by rw [h4])
  have e1 : geomAt gdf party1.1.1 ∩ geomAt gdf party1.1.2 = p1.2 ∩ p2.2 := by
    rw [hp11, hp12, hga1, hga2]
  have e2 : geomAt gdf party2.1.1 ∩ geomAt gdf party2.1.2 = q1.2 ∩ q2.2 := by
    rw [hp21, hp22, hgb1, hgb2]
  refine ⟨(otherParties party2.2).flatMap fun g =>
    groupRows (selfViews gdf) bd σ a b (p1.2 ∩ p2.2) (q1.2 ∩ q2.2)
      (geomAt gdf g.2.1 ∩ geomAt gdf g.2.2) g.1, ?_⟩
  rw [hrows]
  unfold reconcileRows
  rw [e1, e2]

/-- C8 witness: on `gdfA`, the first two rows of the `(AAA, BBB)`
reconciliation carry the own-perspective intersections and the empty-line
sentinel. -/
theorem c8_witness :
    ∃ rest, ([⟨"AAA", "BBB", ["AAA"], .wkt {0, 1}, .emptyLine⟩,
      ⟨"AAA", "BBB", ["BBB"], .wkt {0, 1}, .emptyLine⟩,
      ⟨"AAA", "BBB", ["CCC"], .wkt {1}, .emptyLine⟩,
      ⟨"AAA", "BBB", ["DDD"], .emptyLine, .emptyLine⟩] : List BRow) =
      ⟨"AAA", "BBB", ["AAA"],
        .wkt (({0, 1, 2} : Finset ℕ) ∩ {0, 1, 3}), .emptyLine⟩ ::
      ⟨"AAA", "BBB", ["BBB"],
        .wkt (({0, 1, 2} : Finset ℕ) ∩ {0, 1, 3}), .emptyLine⟩ :: rest :=
  c8_first_party_rows gdfA bdZero id cfgABCD "AAA" "BBB" _
    (0, {0, 1, 2}) (1, {0, 1, 3}) (0, {0, 1, 2}) (1, {0, 1, 3})
    (by decide) (by decide) (by decide) (by decide) (by decide)
    (by decide) (by decide) (by decide) (by decide)
